import Mathlib

/-!
Verification of the kadena-rag repository core: the chunking algorithm
(`Vectorizer.splitIntoChunks`), the ingestion pipeline
(`Vectorizer.processDocuments`), the retrieval-augmented query engine
(`KadenaRAG.query`) and the HTTP request handler (`createRagRouter`).

JavaScript strings are modelled as lists of characters (`JSString`), so
`s.length` is `List.length`, string concatenation is `List.append`,
`text.split(" ")` is `splitP` at the space character, and
`Array.prototype.join(sep)` is `jsJoin`.
-/

/-- JavaScript strings modelled as lists of characters. -/
abbrev JSString := List Char

/-- Shorthand turning a Lean string literal into its character list. -/
def str (s : String) : JSString := s.data

/-- Chunk metadata, the shallow copy of the identifying fields of the parent
document taken in `splitIntoChunks`. -/
structure Metadata where
  source : JSString
  title : JSString
deriving DecidableEq, Repr

/-- A chunk as produced by `Vectorizer.splitIntoChunks`: a piece of text plus
the inherited metadata. -/
structure Chunk where
  text : JSString
  metadata : Metadata
deriving DecidableEq, Repr

/-- The character budget per chunk, `CHUNK_SIZE = 500` in vectorizer.js. -/
def CHUNK_SIZE : Nat := 500

/-- Model of the JavaScript `s.split(sep)` for a one-character separator,
generalised to an arbitrary Boolean test on the separator character: the
string is cut at every character satisfying `p`, the separators are dropped,
and empty pieces are kept, so that splitting the empty string yields one
empty piece, exactly as `"".split(" ")` yields `[""]`. -/
def splitP (p : Char → Bool) : JSString → List JSString
  | [] => [[]]
  | c :: rest =>
    if p c then [] :: splitP p rest
    else
      match splitP p rest with
      | [] => [[c]]
      | w :: ws => (c :: w) :: ws

/-- Test for the space character, the separator used by `text.split(" ")`. -/
def isSpaceChar (c : Char) : Bool := c == ' '

/-- Test for the usual JavaScript whitespace characters. -/
def isWSChar (c : Char) : Bool := c == ' ' || c == '\t' || c == '\n' || c == '\r'

/-- Model of `text.split(" ")` from `splitIntoChunks`. -/
def splitSpace (s : JSString) : List JSString := splitP isSpaceChar s

/-- The pieces of a string cut at every character satisfying `p`, empty
pieces dropped: the `p`-delimited word sequence of the string. -/
def wordsP (p : Char → Bool) (s : JSString) : List JSString :=
  (splitP p s).filter (· ≠ [])

/-- The whitespace-delimited word sequence of a string. -/
def wordsWS (s : JSString) : List JSString := wordsP isWSChar s

/-- Model of the JavaScript `Array.prototype.join(sep)`. -/
def jsJoin (sep : JSString) : List JSString → JSString
  | [] => []
  | [x] => x
  | x :: xs => x ++ sep ++ jsJoin sep xs

/-- The loop body of `Vectorizer.splitIntoChunks`: iterate over the words,
growing `currentChunk` while appending the next word (plus a separating
space) keeps the length within `CHUNK_SIZE`, otherwise emitting the buffer
(when non-empty) and restarting the buffer with the overflowing word; after
the loop a non-empty buffer is emitted as the final chunk. -/
def chunkLoop (metadata : Metadata) : List JSString → JSString → List Chunk
  | [], currentChunk =>
    if currentChunk ≠ [] then [⟨currentChunk, metadata⟩] else []
  | word :: rest, currentChunk =>
    if (currentChunk ++ ' ' :: word).length ≤ CHUNK_SIZE then
      chunkLoop metadata rest
        (currentChunk ++ (if currentChunk ≠ [] then [' '] else []) ++ word)
    else
      (if currentChunk ≠ [] then [⟨currentChunk, metadata⟩] else [])
        ++ chunkLoop metadata rest word

/-- Model of `Vectorizer.splitIntoChunks(text, metadata)`. -/
def splitIntoChunks (text : JSString) (metadata : Metadata) : List Chunk :=
  chunkLoop metadata (splitSpace text) []

/-- Sample metadata used by concrete witnesses. -/
def sampleMeta : Metadata := ⟨str "mining.md", str "Mining"⟩

/-- Decimal digit characters as used by the JavaScript number-to-string
conversion of the template literal in `processDocuments`. -/
def digitChar : Nat → Char
  | 0 => '0'
  | 1 => '1'
  | 2 => '2'
  | 3 => '3'
  | 4 => '4'
  | 5 => '5'
  | 6 => '6'
  | 7 => '7'
  | 8 => '8'
  | _ => '9'

/-- Fuel-driven helper for the decimal rendering: with enough fuel it writes
the decimal digits of `n`, most significant first. -/
def natReprAux : Nat → Nat → JSString
  | 0, _ => []
  | fuel + 1, n =>
    if n < 10 then [digitChar n]
    else natReprAux fuel (n / 10) ++ [digitChar (n % 10)]

/-- Decimal rendering of a natural number, the JavaScript conversion applied
to `docIndex` and `chunkIndex` inside the template literal. -/
def natRepr (n : Nat) : JSString := natReprAux (n + 1) n

/-- The numeric value of a decimal digit character. -/
def digitVal (c : Char) : Nat := c.toNat - 48

/-- Reads a decimal digit string back into the number it denotes. -/
def parseNat (s : JSString) : Nat :=
  s.foldl (fun acc c => 10 * acc + digitVal c) 0

/-- The chunk identifier of document index `d` and chunk index `c`: the
template literal interpolating the two indices around a dash. -/
def mkId (d c : Nat) : JSString := natRepr d ++ '-' :: natRepr c

/-- A document record of the processed corpus file, as read by
`processDocuments`. -/
structure Document where
  content : JSString
  source : JSString
  title : JSString
deriving DecidableEq, Repr

/-- The metadata object passed to the chunker for a document. -/
def docMeta (doc : Document) : Metadata := ⟨doc.source, doc.title⟩

/-- The chunks that the chunker produces for one document. -/
def docChunks (doc : Document) : List Chunk :=
  splitIntoChunks doc.content (docMeta doc)

/-- The identifier, text and metadata triples accumulated for the chunks of
one document, the chunk index running from `c0`: the inner `forEach` of
`processDocuments`. -/
def chunkTriples (d : Nat) :
    Nat → List Chunk → List (JSString × JSString × Metadata)
  | _, [] => []
  | c, chunk :: rest =>
    (mkId d c, chunk.text, chunk.metadata) :: chunkTriples d (c + 1) rest

/-- The triples accumulated across the whole corpus, the document index
running from `d0`: the outer `forEach` of `processDocuments`. -/
def corpusTriples : Nat → List Document → List (JSString × JSString × Metadata)
  | _, [] => []
  | d, doc :: rest =>
    chunkTriples d 0 (docChunks doc) ++ corpusTriples (d + 1) rest

/-- All chunk identifiers generated by one ingestion run over a corpus. -/
def ingestIds (documents : List Document) : List JSString :=
  (corpusTriples 0 documents).map (fun triple => triple.1)

/-- Sample document used by concrete witnesses. -/
def sampleDoc : Document :=
  ⟨str "Kadena uses Blake2s mining.", str "mining.md", str "Mining"⟩

/-- A record stored in the vector collection. -/
structure Record where
  id : JSString
  text : JSString
  metadata : Metadata
deriving DecidableEq, Repr

/-- The vector store collection: the named persistent set of embedded
records, kept in insertion order. -/
structure Collection where
  records : List Record
deriving DecidableEq, Repr

/-- The result shape of `collection.query` in the chromadb JavaScript client
the repository uses: one ranked inner list per query text, as witnessed by
the accesses `results.documents[0]` and `results.metadatas[0]` in index.js. -/
structure QueryResult where
  ids : List (List JSString)
  documents : List (List JSString)
  metadatas : List (List Metadata)
deriving DecidableEq, Repr

/-- Model of `collection.query(\x7bqueryTexts, nResults\x7d)`: for each query
text the client returns the `nResults` most similar records. Similarity
ranking by the external embedding is abstracted as the record order of the
collection, which no claim below depends on; the faithful parts are the
result shape, one inner list per query text, each list holding at most
`nResults` entries and empty exactly when the collection is empty. -/
def Collection.query (col : Collection) (queryTexts : List JSString)
    (nResults : Nat) : QueryResult :=
  let hits := col.records.take nResults
  { ids := queryTexts.map (fun _ => hits.map Record.id)
  , documents := queryTexts.map (fun _ => hits.map Record.text)
  , metadatas := queryTexts.map (fun _ => hits.map Record.metadata) }

/-- A bulk insert: the argument of one `collection.add` invocation. -/
structure InsertBatch where
  ids : List JSString
  documents : List JSString
  metadatas : List Metadata
deriving DecidableEq, Repr

/-- Model of `collection.add`: append the given records to the collection. -/
def Collection.add (col : Collection) (ins : InsertBatch) : Collection :=
  ⟨col.records ++
    (ins.ids.zip (ins.documents.zip ins.metadatas)).map
      (fun r => ⟨r.1, r.2.1, r.2.2⟩)⟩

/-- The single bulk insert accumulated for a whole corpus by
`processDocuments`: the ids, texts and metadatas arrays pushed in the two
nested `forEach` loops. -/
def corpusInsert (documents : List Document) : InsertBatch :=
  ⟨(corpusTriples 0 documents).map (fun t => t.1),
    (corpusTriples 0 documents).map (fun t => t.2.1),
    (corpusTriples 0 documents).map (fun t => t.2.2)⟩

/-- Steps 2 to 4 of `processDocuments`, after the probe: read the corpus
file (its outcome, a document list or a read failure, is the `readResult`
argument), chunk every document, accumulate all triples, and perform the one
`collection.add` call. The first component lists the insert calls performed;
the second is the run outcome: the updated collection, or the error
rethrown by the catch block, in which case no insert happened. -/
def ingestSteps (col : Collection)
    (readResult : Except JSString (List Document)) :
    List InsertBatch × Except JSString Collection :=
  match readResult with
  | .error e => ([], .error e)
  | .ok documents =>
    ([corpusInsert documents], .ok (col.add (corpusInsert documents)))

/-- Model of `Vectorizer.processDocuments`: first the probe query with the
single-space query text and one requested result; the run returns early
exactly when `check.ids.length > 0`; otherwise it performs the ingest
steps. -/
def processDocumentsRun (col : Collection)
    (readResult : Except JSString (List Document)) :
    List InsertBatch × Except JSString Collection :=
  let check := col.query [[' ']] 1
  if check.ids.length > 0 then ([], .ok col)
  else ingestSteps col readResult

/-- The empty collection: the store before any ingestion. -/
def emptyCollection : Collection := ⟨[]⟩

/-- The apostrophe character, written by code point to build the fixed
system instruction text. -/
def apoChar : Char := Char.ofNat 39

/-- The fixed system instruction of `KadenaRAG.query`, the concatenation of
the string literals in index.js. -/
def systemContent : JSString :=
  str "You are K-Agent: An AI agent that answers questions about Kadena blockchain. Use the provided context to answer questions accurately. Be detailed in your answers If you" ++
    apoChar ::
      str "re not sure about something, say so.Do NOT use Markdown formatting in your responses."

/-- A chat message sent to the language model completion. -/
structure ChatMessage where
  role : JSString
  content : JSString
deriving DecidableEq, Repr

/-- A source attribution of the response: the title and source fields
projected from a chunk metadata. -/
structure SourceRef where
  title : JSString
  source : JSString
deriving DecidableEq, Repr

/-- The observable outcome of one `KadenaRAG.query` call: the context
string it assembled, the messages it sent to the completion, the returned
answer and the shaped source attributions. -/
structure RagCall where
  context : JSString
  messages : List ChatMessage
  answer : JSString
  sources : List SourceRef
deriving DecidableEq, Repr

/-- Model of `KadenaRAG.query(question, numResults)`, with the language
model completion abstracted as the black-box function `complete` from the
messages to the raw completion text. `results.documents[0]` and
`results.metadatas[0]` are the head inner lists of the query result, which
`Collection.query` always populates with exactly one inner list per query
text, here the single `question`. -/
def kadenaQuery (col : Collection) (complete : List ChatMessage → JSString)
    (question : JSString) (numResults : Nat) : RagCall :=
  let results := col.query [question] numResults
  let context := jsJoin (str "\n\n") results.documents.headI
  let messages : List ChatMessage :=
    [⟨str "system", systemContent⟩,
     ⟨str "user",
       str "Context: " ++ context ++ str "\n\nQuestion: " ++ question⟩]
  { context := context
  , messages := messages
  , answer := complete messages
  , sources :=
      results.metadatas.headI.map (fun meta => ⟨meta.title, meta.source⟩) }

/-- A record holding the sample chunk of the specification test. -/
def sampleRecord : Record :=
  ⟨str "0-0", str "Kadena uses Blake2s mining.", sampleMeta⟩

/-- The request body of POST /api/rag: the question and numResults fields,
each possibly absent. -/
structure ReqBody where
  question : Option JSString
  numResults : Option Nat
deriving DecidableEq, Repr

/-- The JSON body of a response of the rag route. -/
inductive RagResponseBody where
  | success (question answer : JSString) (sources : List SourceRef)
  | clientError (error : JSString)
  | serverError (error details : JSString)
deriving DecidableEq, Repr

/-- The result of one `rag.query` call seen from the route handler: the
answer and sources on success, the thrown error message on failure. -/
structure RagAnswer where
  answer : JSString
  sources : List SourceRef
deriving DecidableEq, Repr

/-- The observable outcome of one request: the HTTP status, the response
body and the `rag.query` invocations performed, in order. Retrieval and
completion happen only inside `rag.query`, so an empty invocation list
means neither external call was made. -/
structure HandlerOutcome where
  status : Nat
  body : RagResponseBody
  ragInvocations : List (JSString × Nat)
deriving DecidableEq, Repr

/-- Model of the POST /api/rag handler of `createRagRouter`: destructure
`question` and `numResults` (defaulting to 5) from the body; a missing or
falsy `question`, which for a string value means exactly the empty string,
is rejected with status 400 and no `rag.query` call; otherwise `rag.query`
is invoked once and its success or failure shapes the 200 or 500
response. -/
def ragHandler (query : JSString → Nat → Except JSString RagAnswer)
    (body : ReqBody) : HandlerOutcome :=
  let numResults := body.numResults.getD 5
  match body.question with
  | none => ⟨400, .clientError (str "Question is required"), []⟩
  | some question =>
    if question = [] then
      ⟨400, .clientError (str "Question is required"), []⟩
    else
      match query question numResults with
      | .ok response =>
        ⟨200, .success question response.answer response.sources,
          [(question, numResults)]⟩
      | .error e =>
        ⟨500, .serverError (str "Failed to process question") e,
          [(question, numResults)]⟩

/-- A sample `rag.query` function used by concrete witnesses. -/
def sampleQueryFn : JSString → Nat → Except JSString RagAnswer :=
  fun _ _ => .ok ⟨str "ok", []⟩

example : splitSpace (str "a b") = [str "a", str "b"] := by decide

example : splitSpace (str "") = [[]] := by decide

example : splitSpace (str " ") = [[], []] := by decide

example : splitIntoChunks (str "hi there") sampleMeta
    = [⟨str "hi there", sampleMeta⟩] := by decide

example : splitIntoChunks (str "") sampleMeta = [] := by decide

example : splitIntoChunks (str "  ") sampleMeta = [] := by decide

theorem splitP_ne_nil (p : Char → Bool) (s : JSString) : splitP p s ≠ [] := by
  cases s with
  | nil => simp [splitP]
  | cons c rest =>
    simp only [splitP]
    split
    · simp
    · split <;> simp

theorem splitP_cons_pos (p : Char → Bool) {c : Char} (hc : p c = true)
    (rest : JSString) : splitP p (c :: rest) = [] :: splitP p rest := by
  simp [splitP, hc]

theorem splitP_cons_neg (p : Char → Bool) {c : Char} (hc : p c = false)
    {rest : JSString} {w : JSString} {ws : List JSString}
    (hrest : splitP p rest = w :: ws) :
    splitP p (c :: rest) = (c :: w) :: ws := by
  simp [splitP, hc, hrest]

theorem splitP_append_sep (p : Char → Bool) {c : Char} (hc : p c = true)
    (a b : JSString) : splitP p (a ++ c :: b) = splitP p a ++ splitP p b := by
  induction a with
  | nil => rw [List.nil_append, splitP_cons_pos p hc]; rfl
  | cons x a ih =>
    obtain ⟨w, ws, hw⟩ := List.exists_cons_of_ne_nil (splitP_ne_nil p a)
    by_cases hx : p x
    · rw [List.cons_append, splitP_cons_pos p hx, splitP_cons_pos p hx, ih,
        List.cons_append]
    · have hx' : p x = false := by simpa using hx
      rw [List.cons_append,
        splitP_cons_neg p hx' (by rw [ih, hw, List.cons_append]),
        splitP_cons_neg p hx' hw, List.cons_append]

theorem wordsP_nil (p : Char → Bool) : wordsP p [] = [] := by
  simp [wordsP, splitP]

theorem wordsP_append_sep (p : Char → Bool) {c : Char} (hc : p c = true)
    (a b : JSString) : wordsP p (a ++ c :: b) = wordsP p a ++ wordsP p b := by
  unfold wordsP
  rw [splitP_append_sep p hc, List.filter_append]

theorem intercalate_one (s x : JSString) : List.intercalate s [x] = x := by
  simp [List.intercalate]

theorem intercalate_cons_cons (s x y : JSString) (l : List JSString) :
    List.intercalate s (x :: y :: l) = x ++ s ++ List.intercalate s (y :: l) := by
  simp [List.intercalate, List.intersperse]

theorem wordsP_join_cons (p : Char → Bool) (hp : p ' ' = true) (x : JSString)
    (l : List JSString) :
    wordsP p (List.intercalate [' '] (x :: l)) =
      wordsP p x ++ wordsP p (List.intercalate [' '] l) := by
  cases l with
  | nil =>
    rw [intercalate_one]
    simp [List.intercalate, wordsP_nil]
  | cons y l =>
    rw [intercalate_cons_cons, List.append_assoc, List.singleton_append]
    exact wordsP_append_sep p hp x _

theorem wordsP_intercalate (p : Char → Bool) (hp : p ' ' = true)
    (l : List JSString) :
    wordsP p (List.intercalate [' '] l) = l.flatMap (wordsP p) := by
  induction l with
  | nil => simp [List.intercalate, wordsP_nil]
  | cons x l ih => rw [wordsP_join_cons p hp, ih, List.flatMap_cons]

theorem intercalate_splitSpace (s : JSString) :
    List.intercalate [' '] (splitSpace s) = s := by
  unfold splitSpace
  induction s with
  | nil => simp [splitP, intercalate_one]
  | cons c rest ih =>
    obtain ⟨w, ws, hw⟩ := List.exists_cons_of_ne_nil (splitP_ne_nil isSpaceChar rest)
    by_cases hc : isSpaceChar c
    · have hc' : c = ' ' := by
        have := hc
        simp [isSpaceChar] at this
        exact this
      rw [splitP_cons_pos _ hc, hw, intercalate_cons_cons, ← hw, ih,
        List.nil_append, List.singleton_append, hc']
    · have hc' : isSpaceChar c = false := by simpa using hc
      rw [splitP_cons_neg _ hc' hw]
      have ih' : List.intercalate [' '] (w :: ws) = rest := by rw [← hw]; exact ih
      cases ws with
      | nil =>
        rw [intercalate_one]
        rw [intercalate_one] at ih'
        rw [ih']
      | cons z zs =>
        rw [intercalate_cons_cons]
        rw [intercalate_cons_cons] at ih'
        rw [← ih']
        simp

theorem chunkLoop_words (p : Char → Bool) (hp : p ' ' = true) (m : Metadata) :
    ∀ (ws : List JSString) (c : JSString),
      wordsP p (List.intercalate [' '] ((chunkLoop m ws c).map Chunk.text)) =
        wordsP p c ++ ws.flatMap (wordsP p) := by
  intro ws
  induction ws with
  | nil =>
    intro c
    by_cases hc : c = []
    · subst hc
      simp [chunkLoop, List.intercalate, wordsP_nil]
    · simp only [chunkLoop, hc, ne_eq, not_false_eq_true, if_true, ite_true,
        List.map_cons, List.map_nil]
      rw [intercalate_one]
      simp
  | cons w rest ih =>
    intro c
    simp only [chunkLoop]
    by_cases hfit : (c ++ ' ' :: w).length ≤ CHUNK_SIZE
    · rw [if_pos hfit, ih]
      by_cases hc : c = []
      · subst hc
        simp [wordsP_nil]
      · have harg : c ++ (if c ≠ [] then [' '] else []) ++ w = c ++ ' ' :: w := by
          simp [hc, List.append_assoc]
        rw [harg, wordsP_append_sep p hp, List.flatMap_cons, List.append_assoc]
    · rw [if_neg hfit]
      by_cases hc : c = []
      · subst hc
        simp only [ne_eq, not_true_eq_false, if_false, ite_false, List.nil_append]
        rw [ih, wordsP_nil, List.nil_append, List.flatMap_cons]
      · simp only [hc, ne_eq, not_false_eq_true, if_true, ite_true,
          List.singleton_append, List.map_cons]
        rw [wordsP_join_cons p hp, ih, List.flatMap_cons]

/-- C2: re-joining all chunk texts produced by `splitIntoChunks` with single
spaces reproduces the whitespace-delimited word sequence of the input text:
no words are dropped, duplicated or reordered. -/
theorem chunks_rejoin_words (t : JSString) (m : Metadata) :
    wordsWS (List.intercalate [' ']
      ((splitIntoChunks t m).map Chunk.text)) = wordsWS t := by
  unfold splitIntoChunks wordsWS
  rw [chunkLoop_words isWSChar (by decide) m (splitSpace t) [],
    wordsP_nil, List.nil_append,
    ← wordsP_intercalate isWSChar (by decide), intercalate_splitSpace]

theorem splitP_chars (p : Char → Bool) (s : JSString) :
    ∀ w ∈ splitP p s, ∀ x ∈ w, p x = false := by
  induction s with
  | nil =>
    intro w hw x hx
    simp only [splitP, List.mem_singleton] at hw
    subst hw
    simp at hx
  | cons c rest ih =>
    intro w hw x hx
    by_cases hc : p c
    · rw [splitP_cons_pos p hc] at hw
      rcases List.mem_cons.mp hw with rfl | hw'
      · simp at hx
      · exact ih w hw' x hx
    · have hc' : p c = false := by simpa using hc
      obtain ⟨v, vs, hv⟩ := List.exists_cons_of_ne_nil (splitP_ne_nil p rest)
      rw [splitP_cons_neg p hc' hv] at hw
      rcases List.mem_cons.mp hw with rfl | hw'
      · rcases List.mem_cons.mp hx with rfl | hx'
        · exact hc'
        · exact ih v (hv ▸ List.mem_cons_self v vs) x hx'
      · exact ih w (hv ▸ List.mem_cons_of_mem v hw') x hx

theorem chunkLoop_size (m : Metadata) :
    ∀ (ws : List JSString) (c : JSString),
      (∀ w ∈ ws, ' ' ∉ w) →
      (c.length ≤ CHUNK_SIZE ∨ ' ' ∉ c) →
      ∀ ch ∈ chunkLoop m ws c,
        ch.text.length ≤ CHUNK_SIZE ∨
          (CHUNK_SIZE < ch.text.length ∧ ' ' ∉ ch.text ∧
            (ch.text = c ∨ ch.text ∈ ws)) := by
  intro ws
  induction ws with
  | nil =>
    intro c _ hc ch hch
    by_cases h : c = []
    · subst h; simp [chunkLoop] at hch
    · simp only [chunkLoop, h, ne_eq, not_false_eq_true, ite_true,
        List.mem_singleton] at hch
      subst hch
      rcases hc with hle | hsp
      · exact Or.inl hle
      · by_cases hlen : c.length ≤ CHUNK_SIZE
        · exact Or.inl hlen
        · exact Or.inr ⟨Nat.lt_of_not_le hlen, hsp, Or.inl rfl⟩
  | cons w rest ih =>
    intro c hws hc ch hch
    simp only [chunkLoop] at hch
    by_cases hfit : (c ++ ' ' :: w).length ≤ CHUNK_SIZE
    · rw [if_pos hfit] at hch
      have hlen : (c ++ (if c ≠ [] then [' '] else []) ++ w).length
          ≤ CHUNK_SIZE := by
        by_cases h : c = [] <;>
          simp only [h, ne_eq, not_true_eq_false, not_false_eq_true, ite_true,
            ite_false, List.length_append, List.length_cons, List.length_nil,
            List.nil_append, List.length_singleton] at hfit ⊢ <;>
          omega
      have hres := ih _ (fun u hu => hws u (List.mem_cons_of_mem w hu))
        (Or.inl hlen) ch hch
      rcases hres with hle | ⟨hlt, hsp, heq⟩
      · exact Or.inl hle
      · rcases heq with he | hmem
        · rw [he] at hlt; omega
        · exact Or.inr ⟨hlt, hsp, Or.inr (List.mem_cons_of_mem w hmem)⟩
    · rw [if_neg hfit] at hch
      rcases List.mem_append.mp hch with hpush | hrec
      · by_cases h : c = []
        · subst h; simp at hpush
        · simp only [h, ne_eq, not_false_eq_true, ite_true,
            List.mem_singleton] at hpush
          subst hpush
          rcases hc with hle | hsp
          · exact Or.inl hle
          · by_cases hlen : c.length ≤ CHUNK_SIZE
            · exact Or.inl hlen
            · exact Or.inr ⟨Nat.lt_of_not_le hlen, hsp, Or.inl rfl⟩
      · have hwsp : ' ' ∉ w := hws w (List.mem_cons_self w rest)
        have hres := ih w (fun u hu => hws u (List.mem_cons_of_mem w hu))
          (Or.inr hwsp) ch hrec
        rcases hres with hle | ⟨hlt, hsp, heq⟩
        · exact Or.inl hle
        · rcases heq with he | hmem
          · exact Or.inr ⟨hlt, hsp, Or.inr (he ▸ List.mem_cons_self w rest)⟩
          · exact Or.inr ⟨hlt, hsp, Or.inr (List.mem_cons_of_mem w hmem)⟩

/-- C3: every chunk emitted by `splitIntoChunks` has text length at most the
`CHUNK_SIZE` budget of 500 characters, except an oversized chunk, which
consists of exactly one word of the input (it contains no space and is itself
one of the pieces of `text.split` at spaces) longer than the budget. -/
theorem splitIntoChunks_size (t : JSString) (m : Metadata) :
    ∀ ch ∈ splitIntoChunks t m,
      ch.text.length ≤ CHUNK_SIZE ∨
        (CHUNK_SIZE < ch.text.length ∧ ' ' ∉ ch.text ∧
          ch.text ∈ splitSpace t) := by
  intro ch hch
  have hws : ∀ w ∈ splitSpace t, ' ' ∉ w := by
    intro w hw hsp
    have hfalse := splitP_chars isSpaceChar t w hw ' ' hsp
    simp [isSpaceChar] at hfalse
  have hres := chunkLoop_size m (splitSpace t) [] hws
    (Or.inl (by simp [CHUNK_SIZE])) ch hch
  rcases hres with hle | ⟨hlt, hsp, heq⟩
  · exact Or.inl hle
  · rcases heq with he | hmem
    · rw [he] at hlt; simp [CHUNK_SIZE] at hlt
    · exact Or.inr ⟨hlt, hsp, hmem⟩

/-- Concrete instance of `splitIntoChunks_size`: the single chunk produced
from the text "hi there" satisfies the size bound. -/
theorem splitIntoChunks_size_witness :
    (⟨str "hi there", sampleMeta⟩ : Chunk)
        ∈ splitIntoChunks (str "hi there") sampleMeta ∧
      ((⟨str "hi there", sampleMeta⟩ : Chunk).text.length ≤ CHUNK_SIZE ∨
        (CHUNK_SIZE < (⟨str "hi there", sampleMeta⟩ : Chunk).text.length ∧
          ' ' ∉ (⟨str "hi there", sampleMeta⟩ : Chunk).text ∧
          (⟨str "hi there", sampleMeta⟩ : Chunk).text
            ∈ splitSpace (str "hi there"))) :=
  ⟨by decide, splitIntoChunks_size (str "hi there") sampleMeta _ (by decide)⟩

theorem chunkLoop_text_ne_nil (m : Metadata) :
    ∀ (ws : List JSString) (c : JSString), ∀ ch ∈ chunkLoop m ws c,
      ch.text ≠ [] := by
  intro ws
  induction ws with
  | nil =>
    intro c ch hch
    by_cases h : c = []
    · subst h; simp [chunkLoop] at hch
    · simp only [chunkLoop, h, ne_eq, not_false_eq_true, ite_true,
        List.mem_singleton] at hch
      subst hch
      simpa using h
  | cons w rest ih =>
    intro c ch hch
    simp only [chunkLoop] at hch
    by_cases hfit : (c ++ ' ' :: w).length ≤ CHUNK_SIZE
    · rw [if_pos hfit] at hch
      exact ih _ ch hch
    · rw [if_neg hfit] at hch
      rcases List.mem_append.mp hch with hpush | hrec
      · by_cases h : c = []
        · subst h; simp at hpush
        · simp only [h, ne_eq, not_false_eq_true, ite_true,
            List.mem_singleton] at hpush
          subst hpush
          simpa using h
      · exact ih w ch hrec

/-- C9: every chunk emitted by `splitIntoChunks` has non-empty text, for
every input text, including the empty text and all-space texts. -/
theorem splitIntoChunks_text_ne_nil (t : JSString) (m : Metadata) :
    ∀ ch ∈ splitIntoChunks t m, ch.text ≠ [] := fun ch hch =>
  chunkLoop_text_ne_nil m (splitSpace t) [] ch hch

/-- Concrete instance of `splitIntoChunks_text_ne_nil`: the chunk produced
from the text "kadena" has non-empty text. -/
theorem splitIntoChunks_text_ne_nil_witness :
    (⟨str "kadena", sampleMeta⟩ : Chunk)
        ∈ splitIntoChunks (str "kadena") sampleMeta ∧
      (⟨str "kadena", sampleMeta⟩ : Chunk).text ≠ [] :=
  ⟨by decide,
    splitIntoChunks_text_ne_nil (str "kadena") sampleMeta _ (by decide)⟩

example : natRepr 0 = str "0" := by decide

example : natRepr 12 = str "12" := by decide

example : natRepr 230 = str "230" := by decide

theorem digitVal_digitChar {d : Nat} (h : d < 10) :
    digitVal (digitChar d) = d := by
  interval_cases d <;> decide

theorem digitChar_ne_dash {d : Nat} (h : d < 10) : digitChar d ≠ '-' := by
  interval_cases d <;> decide

theorem parseNat_append_digit (a : JSString) (c : Char) :
    parseNat (a ++ [c]) = 10 * parseNat a + digitVal c := by
  unfold parseNat
  rw [List.foldl_append]
  rfl

theorem parseNat_natReprAux :
    ∀ (fuel n : Nat), n < fuel → parseNat (natReprAux fuel n) = n := by
  intro fuel
  induction fuel with
  | zero => intro n hn; omega
  | succ fuel ih =>
    intro n hn
    rw [natReprAux]
    by_cases h : n < 10
    · rw [if_pos h]
      show 10 * 0 + digitVal (digitChar n) = n
      rw [digitVal_digitChar h]
      omega
    · have hdiv : n / 10 < n := Nat.div_lt_self (by omega) (by omega)
      rw [if_neg h, parseNat_append_digit, ih (n / 10) (by omega),
        digitVal_digitChar (Nat.mod_lt n (by omega))]
      omega

theorem parseNat_natRepr (n : Nat) : parseNat (natRepr n) = n :=
  parseNat_natReprAux (n + 1) n (Nat.lt_succ_self n)

theorem natRepr_inj {a b : Nat} (h : natRepr a = natRepr b) : a = b := by
  have hparse := congrArg parseNat h
  rwa [parseNat_natRepr, parseNat_natRepr] at hparse

theorem dash_not_mem_natReprAux :
    ∀ (fuel n : Nat), '-' ∉ natReprAux fuel n := by
  intro fuel
  induction fuel with
  | zero => intro n; simp [natReprAux]
  | succ fuel ih =>
    intro n
    rw [natReprAux]
    by_cases h : n < 10
    · rw [if_pos h]
      simp only [List.mem_singleton]
      exact fun he => digitChar_ne_dash h he.symm
    · rw [if_neg h]
      intro hmem
      rcases List.mem_append.mp hmem with h1 | h2
      · exact ih (n / 10) h1
      · simp only [List.mem_singleton] at h2
        exact digitChar_ne_dash (Nat.mod_lt n (by omega)) h2.symm

theorem dash_not_mem_natRepr (n : Nat) : '-' ∉ natRepr n :=
  dash_not_mem_natReprAux (n + 1) n

theorem append_sep_inj {x : Char} :
    ∀ {a a' b b' : JSString}, x ∉ a → x ∉ a' →
      a ++ x :: b = a' ++ x :: b' → a = a' ∧ b = b' := by
  intro a
  induction a with
  | nil =>
    intro a' b b' _ ha' he
    cases a' with
    | nil => simpa using he
    | cons y a' =>
      simp only [List.nil_append, List.cons_append, List.cons.injEq] at he
      exact absurd (by rw [he.1]; exact List.mem_cons_self y a') ha'
  | cons y a ih =>
    intro a' b b' ha ha' he
    cases a' with
    | nil =>
      simp only [List.cons_append, List.nil_append, List.cons.injEq] at he
      exact absurd (by rw [← he.1]; exact List.mem_cons_self y a) ha
    | cons z a' =>
      simp only [List.cons_append, List.cons.injEq] at he
      obtain ⟨rfl, he2⟩ := he
      have hres := ih (fun hm => ha (List.mem_cons_of_mem y hm))
        (fun hm => ha' (List.mem_cons_of_mem y hm)) he2
      exact ⟨by rw [hres.1], hres.2⟩

example : mkId 0 2 = str "0-2" := by decide

theorem mkId_inj {d c d' c' : Nat} (h : mkId d c = mkId d' c') :
    d = d' ∧ c = c' := by
  obtain ⟨h1, h2⟩ :=
    append_sep_inj (dash_not_mem_natRepr d) (dash_not_mem_natRepr d') h
  exact ⟨natRepr_inj h1, natRepr_inj h2⟩

theorem chunkTriples_ids (d : Nat) :
    ∀ (chunks : List Chunk) (c0 : Nat),
      (chunkTriples d c0 chunks).map (fun triple => triple.1) =
        (List.range' c0 chunks.length).map (mkId d) := by
  intro chunks
  induction chunks with
  | nil => intro c0; simp [chunkTriples]
  | cons ch rest ih =>
    intro c0
    rw [chunkTriples, List.map_cons, List.length_cons, List.range'_succ,
      List.map_cons, ih]

theorem chunkTriples_length (d : Nat) :
    ∀ (chunks : List Chunk) (c0 : Nat),
      (chunkTriples d c0 chunks).length = chunks.length := by
  intro chunks
  induction chunks with
  | nil => intro c0; simp [chunkTriples]
  | cons ch rest ih => intro c0; rw [chunkTriples, List.length_cons, ih]; rfl

theorem corpusTriples_length :
    ∀ (docs : List Document) (d0 : Nat),
      (corpusTriples d0 docs).length =
        (docs.map (fun doc => (docChunks doc).length)).sum := by
  intro docs
  induction docs with
  | nil => intro d0; simp [corpusTriples]
  | cons doc rest ih =>
    intro d0
    rw [corpusTriples, List.length_append, chunkTriples_length, ih,
      List.map_cons, List.sum_cons]

theorem corpusTriples_ids_mem :
    ∀ (docs : List Document) (d0 : Nat) (idStr : JSString),
      (idStr ∈ (corpusTriples d0 docs).map (fun triple => triple.1) ↔
        ∃ i doc c, docs[i]? = some doc ∧ c < (docChunks doc).length ∧
          idStr = mkId (d0 + i) c) := by
  intro docs
  induction docs with
  | nil =>
    intro d0 idStr
    simp [corpusTriples]
  | cons doc rest ih =>
    intro d0 idStr
    rw [corpusTriples, List.map_append, List.mem_append, chunkTriples_ids,
      ih (d0 + 1) idStr]
    constructor
    · rintro (hfst | ⟨i, doc', c, hdoc, hc, heq⟩)
      · obtain ⟨c, hc, rfl⟩ := List.mem_map.mp hfst
        rw [List.mem_range'_1] at hc
        exact ⟨0, doc, c, by simp, by omega, by rw [Nat.add_zero]⟩
      · refine ⟨i + 1, doc', c, ?_, hc, ?_⟩
        · simpa using hdoc
        · rw [heq, show d0 + (i + 1) = d0 + 1 + i by omega]
    · rintro ⟨i, doc', c, hdoc, hc, heq⟩
      cases i with
      | zero =>
        left
        simp only [List.getElem?_cons_zero, Option.some.injEq] at hdoc
        subst hdoc
        rw [heq, Nat.add_zero]
        exact List.mem_map.mpr ⟨c, List.mem_range'_1.mpr (by omega), rfl⟩
      | succ j =>
        right
        refine ⟨j, doc', c, by simpa using hdoc, hc, ?_⟩
        rw [heq, show d0 + (j + 1) = d0 + 1 + j by omega]

theorem corpusTriples_ids_nodup :
    ∀ (docs : List Document) (d0 : Nat),
      ((corpusTriples d0 docs).map (fun triple => triple.1)).Nodup := by
  intro docs
  induction docs with
  | nil => intro d0; simp [corpusTriples]
  | cons doc rest ih =>
    intro d0
    rw [corpusTriples, List.map_append]
    refine List.Nodup.append ?_ (ih (d0 + 1)) ?_
    · rw [chunkTriples_ids]
      exact List.Nodup.map (fun c c' h => (mkId_inj h).2)
        (List.nodup_range' 0 (docChunks doc).length)
    · intro idStr h1 h2
      rw [chunkTriples_ids] at h1
      obtain ⟨c, _, rfl⟩ := List.mem_map.mp h1
      obtain ⟨i, doc', c', _, _, heq⟩ :=
        (corpusTriples_ids_mem rest (d0 + 1) _).mp h2
      have hd := (mkId_inj heq).1
      omega

/-- C4: over a corpus of documents, ingestion generates exactly one
identifier per chunk, so their number is the sum over the documents of the
chunk counts; the identifiers are pairwise distinct; and every identifier is
the rendering of a document index, a dash and a chunk index, where the
document index addresses a document of the corpus and the chunk index is
below the chunk count of that document. -/
theorem ingestIds_spec (documents : List Document) :
    (ingestIds documents).length =
        (documents.map (fun doc => (docChunks doc).length)).sum ∧
      (ingestIds documents).Nodup ∧
      ∀ idStr ∈ ingestIds documents, ∃ i doc c,
        documents[i]? = some doc ∧ c < (docChunks doc).length ∧
          idStr = mkId i c := by
  refine ⟨?_, corpusTriples_ids_nodup documents 0, ?_⟩
  · rw [ingestIds, List.length_map, corpusTriples_length]
  · intro idStr hmem
    obtain ⟨i, doc, c, h1, h2, h3⟩ :=
      (corpusTriples_ids_mem documents 0 idStr).mp hmem
    exact ⟨i, doc, c, h1, h2, by rw [h3, Nat.zero_add]⟩

/-- Concrete instance of `ingestIds_spec`: the identifier of the first chunk
of a one-document corpus decomposes as document index 0 and chunk index 0. -/
theorem ingestIds_spec_witness :
    str "0-0" ∈ ingestIds [sampleDoc] ∧
      ∃ i doc c, [sampleDoc][i]? = some doc ∧ c < (docChunks doc).length ∧
        str "0-0" = mkId i c :=
  ⟨by decide, (ingestIds_spec [sampleDoc]).2.2 (str "0-0") (by decide)⟩

theorem processDocumentsRun_eq (col : Collection)
    (readResult : Except JSString (List Document)) :
    processDocumentsRun col readResult = ([], .ok col) := rfl

/-- C1: the claimed probe behaviour does not hold of the code:
`check.ids.length` counts the inner per-query-text result lists, of which
there is always exactly one, not the returned identifiers, so every run of
`processDocuments` returns early without inserting; in particular the first
run against the empty store inserts nothing even though the probe returned
an empty identifier list. -/
theorem processDocuments_always_skips :
    (∀ (col : Collection) (readResult : Except JSString (List Document)),
        processDocumentsRun col readResult = ([], .ok col)) ∧
      (emptyCollection.query [[' ']] 1).ids = [[]] :=
  ⟨fun col readResult => processDocumentsRun_eq col readResult, rfl⟩

/-- C7: an ingestion run performs at most one bulk insert; a run whose
outcome is an error performed no insert; a failing corpus read makes the
ingest steps abort with the rethrown error before any insert; and a
successful read leads to exactly one bulk insert, performed last and
carrying the accumulated triples of the whole corpus, so the store is never
partially ingested. -/
theorem processDocuments_single_batch (col : Collection)
    (readResult : Except JSString (List Document)) :
    (processDocumentsRun col readResult).1.length ≤ 1 ∧
      (∀ e, (processDocumentsRun col readResult).2 = .error e →
        (processDocumentsRun col readResult).1 = []) ∧
      (∀ e, readResult = .error e →
        ingestSteps col readResult = ([], .error e)) ∧
      (∀ documents, readResult = .ok documents →
        ingestSteps col readResult =
          ([corpusInsert documents],
            .ok (col.add (corpusInsert documents)))) := by
  refine ⟨?_, ?_, ?_, ?_⟩
  · rw [processDocumentsRun_eq]
    exact Nat.zero_le 1
  · intro e he
    rw [processDocumentsRun_eq] at he
    exact absurd he (by simp)
  · intro e he
    rw [he]
    rfl
  · intro documents hdocs
    rw [hdocs]
    rfl

/-- Concrete instance of `processDocuments_single_batch`: for a successful
read of a one-document corpus, the ingest steps perform exactly the one
whole-corpus insert. -/
theorem processDocuments_single_batch_witness :
    ingestSteps emptyCollection (Except.ok [sampleDoc]) =
      ([corpusInsert [sampleDoc]],
        Except.ok (emptyCollection.add (corpusInsert [sampleDoc]))) :=
  (processDocuments_single_batch emptyCollection
    (Except.ok [sampleDoc])).2.2.2 [sampleDoc] rfl

theorem jsJoin_eq_intercalate (sep : JSString) :
    ∀ l : List JSString, jsJoin sep l = List.intercalate sep l := by
  intro l
  induction l with
  | nil => simp [jsJoin, List.intercalate]
  | cons x xs ih =>
    cases xs with
    | nil => rw [intercalate_one]; rfl
    | cons y ys =>
      rw [intercalate_cons_cons, ← ih]
      rfl

/-- C5: the context string passed to the language model completion is the
retrieved chunk texts joined in retrieval rank order with a blank line
between consecutive texts; the user message embeds that context and the
question; the answer is the completion of exactly those messages, so the
model is invoked whatever the context; and against the empty collection
zero chunks are retrieved, the context is the empty string, and the
completion is still invoked. -/
theorem kadenaQuery_context (col : Collection)
    (complete : List ChatMessage → JSString) (question : JSString)
    (numResults : Nat) :
    (kadenaQuery col complete question numResults).context =
        List.intercalate (str "\n\n")
          ((col.records.take numResults).map Record.text) ∧
      (kadenaQuery col complete question numResults).messages =
        [⟨str "system", systemContent⟩,
         ⟨str "user", str "Context: " ++
            (kadenaQuery col complete question numResults).context ++
            str "\n\nQuestion: " ++ question⟩] ∧
      (kadenaQuery col complete question numResults).answer =
        complete (kadenaQuery col complete question numResults).messages ∧
      (kadenaQuery emptyCollection complete question numResults).context
          = [] ∧
      (kadenaQuery emptyCollection complete question numResults).answer =
        complete
          (kadenaQuery emptyCollection complete question numResults).messages :=
  ⟨jsJoin_eq_intercalate (str "\n\n")
      ((col.records.take numResults).map Record.text),
    rfl, rfl,
    by
      show jsJoin (str "\n\n")
        ((List.take numResults ([] : List Record)).map Record.text) = []
      rw [List.take_nil]
      rfl,
    rfl⟩

/-- C6: the `sources` field of the response is exactly the title and source
pairs of the retrieved chunk metadata, in the same retrieval rank order,
one entry per retrieved chunk with duplicates preserved, and the `answer`
field is the raw completion text the model returned for the assembled
messages; concretely, a store holding the sample chunk answers a one-result
query with the single matching source attribution, and a store holding the
same chunk twice keeps both duplicate attributions. -/
theorem kadenaQuery_shape (col : Collection)
    (complete : List ChatMessage → JSString) (question : JSString)
    (numResults : Nat) :
    (kadenaQuery col complete question numResults).sources =
        ((col.records.take numResults).map Record.metadata).map
          (fun meta => ⟨meta.title, meta.source⟩) ∧
      (kadenaQuery col complete question numResults).sources.length =
        (col.records.take numResults).length ∧
      (kadenaQuery col complete question numResults).answer =
        complete (kadenaQuery col complete question numResults).messages ∧
      (kadenaQuery ⟨[sampleRecord]⟩ complete question 1).sources =
        [⟨str "Mining", str "mining.md"⟩] ∧
      (kadenaQuery ⟨[sampleRecord, sampleRecord]⟩ complete question 2).sources
        = [⟨str "Mining", str "mining.md"⟩, ⟨str "Mining", str "mining.md"⟩] := by
  refine ⟨rfl, ?_, rfl, rfl, rfl⟩
  show (((col.records.take numResults).map Record.metadata).map
    (fun meta => (⟨meta.title, meta.source⟩ : SourceRef))).length = _
  rw [List.length_map, List.length_map]

/-- C8: a POST /api/rag request whose body has no question field is answered
with status 400 and the error body, and performs no `rag.query` invocation,
hence neither the vector store retrieval nor the completion is invoked. -/
theorem ragHandler_missing_question
    (query : JSString → Nat → Except JSString RagAnswer)
    (numResults : Option Nat) :
    ragHandler query ⟨none, numResults⟩ =
      ⟨400, RagResponseBody.clientError (str "Question is required"), []⟩ :=
  rfl

/-- C10: a present but empty, hence falsy, question is rejected with exactly
the same 400 response as a missing question and without any `rag.query`
invocation; every non-empty, hence truthy, question, whitespace-only
strings included, is accepted: `rag.query` is invoked once with the
question and the defaulted result count, and its outcome shapes the
response. -/
theorem ragHandler_falsy_question
    (query : JSString → Nat → Except JSString RagAnswer)
    (numResults : Option Nat) :
    ragHandler query ⟨some [], numResults⟩ =
        ⟨400, RagResponseBody.clientError (str "Question is required"), []⟩ ∧
      ragHandler query ⟨some [], numResults⟩ =
        ragHandler query ⟨none, numResults⟩ ∧
      ∀ question, question ≠ [] →
        (ragHandler query ⟨some question, numResults⟩).ragInvocations =
            [(question, numResults.getD 5)] ∧
          ragHandler query ⟨some question, numResults⟩ =
            (match query question (numResults.getD 5) with
              | .ok response =>
                ⟨200, .success question response.answer response.sources,
                  [(question, numResults.getD 5)]⟩
              | .error e =>
                ⟨500, .serverError (str "Failed to process question") e,
                  [(question, numResults.getD 5)]⟩) := by
  refine ⟨rfl, rfl, ?_⟩
  intro question hq
  have hmain : ragHandler query ⟨some question, numResults⟩ =
      (match query question (numResults.getD 5) with
        | .ok response =>
          ⟨200, .success question response.answer response.sources,
            [(question, numResults.getD 5)]⟩
        | .error e =>
          ⟨500, .serverError (str "Failed to process question") e,
            [(question, numResults.getD 5)]⟩) := by
    simp only [ragHandler, hq, ite_false, if_neg, not_false_eq_true]
  refine ⟨?_, hmain⟩
  rw [hmain]
  cases query question (numResults.getD 5) with
  | ok response => rfl
  | error e => rfl

/-- Concrete instance of `ragHandler_falsy_question`: the non-empty question
"hi" is processed with one `rag.query` invocation at the default result
count. -/
theorem ragHandler_falsy_question_witness :
    (ragHandler sampleQueryFn ⟨some (str "hi"), none⟩).ragInvocations =
      [(str "hi", 5)] :=
  ((ragHandler_falsy_question sampleQueryFn none).2.2 (str "hi")
    (by decide)).1
